import Mathlib

set_option maxHeartbeats 1000000

/-!
Shallow embedding of the vite-plugin-inject-commands source (src/index.js) and
proofs about its discovery, resolution, invocation and configuration behaviour.

JavaScript strings are modelled as lists of characters, JavaScript values as an
inductive type covering the shapes the plugin handles, the filesystem as a tree
of named entries with a readability flag on directories, and the operating
system's process-execution facility as an oracle mapping a command line to an
outcome.  Observable behaviour (spawned command lines, console output) is
modelled as a list of events.
-/

/-- JavaScript strings, modelled as lists of characters. -/
abbrev JStr := List Char

/-- Embed a Lean string literal into the JavaScript-string model. -/
def jstr (s : String) : JStr := s.data

/-- The single-quote character used by the command-line templates in
`runShellCommand` and `runExecutableCommand`. -/
def qc : Char := Char.ofNat 39

/-- Opening brace character, used by the JSON rendering of objects. -/
def lbrace : Char := Char.ofNat 123

/-- Closing brace character, used by the JSON rendering of objects. -/
def rbrace : Char := Char.ofNat 125

/-- Model of the JavaScript values the plugin passes around: `undefined`,
`null`, booleans, strings, arrays and plain objects.  (Numbers and functions do
not occur in any of the verified scenarios and are omitted.) -/
inductive JsValue where
  | undef
  | nullv
  | boolv (b : Bool)
  | str (s : JStr)
  | arr (elems : List JsValue)
  | obj (fields : List (JStr × JsValue))

/-- JSON escaping of a single character inside a string literal, as
`JSON.stringify` performs it (quote, backslash and the common control
characters; other characters are emitted unchanged). -/
def jsonEscapeChar (c : Char) : JStr :=
  if c = '"' ∨ c = '\\' then ['\\', c]
  else if c = Char.ofNat 10 then ['\\', 'n']
  else if c = Char.ofNat 13 then ['\\', 'r']
  else if c = Char.ofNat 9 then ['\\', 't']
  else [c]

/-- JSON rendering of a string: quoted and escaped. -/
def jsonQuote (s : JStr) : JStr := '"' :: (s.map jsonEscapeChar).flatten ++ ['"']

mutual

/-- Model of `JSON.stringify` on the modelled value forms.  `undefined` has no
JSON encoding (`JSON.stringify` returns `undefined` for it), hence `none`. -/
def jsonStringify : JsValue → Option JStr
  | .undef => none
  | .nullv => some (jstr "null")
  | .boolv true => some (jstr "true")
  | .boolv false => some (jstr "false")
  | .str s => some (jsonQuote s)
  | .arr elems => some ('[' :: List.intercalate [','] (jsonElems elems) ++ [']'])
  | .obj fields =>
    some (lbrace :: List.intercalate [','] (jsonFields fields) ++ [rbrace])

/-- Array elements under `JSON.stringify`: an element with no JSON encoding
(`undefined`) is rendered as `null`. -/
def jsonElems : List JsValue → List JStr
  | [] => []
  | v :: rest => ((jsonStringify v).getD (jstr "null")) :: jsonElems rest

/-- Object fields under `JSON.stringify`: a field whose value has no JSON
encoding (`undefined`) is omitted. -/
def jsonFields : List (JStr × JsValue) → List JStr
  | [] => []
  | (k, v) :: rest =>
    match jsonStringify v with
    | none => jsonFields rest
    | some s => (jsonQuote k ++ ':' :: s) :: jsonFields rest

end

/-- `JSON.stringify` applied to an argument array (always defined, since an
array always has a JSON encoding). -/
def jsonArrayStringify (elems : List JsValue) : JStr :=
  '[' :: List.intercalate [','] (jsonElems elems) ++ [']']

/-- Template-literal interpolation of a JSON encoding: when the value has no
JSON encoding the interpolated `undefined` renders as the text "undefined". -/
def jsonTemplate (v : JsValue) : JStr := (jsonStringify v).getD (jstr "undefined")

mutual

/-- Model of JavaScript string conversion (`String(v)`), as performed by
template-literal interpolation: `undefined` and `null` render as their names,
arrays join their elements with commas, objects render as "[object Object]". -/
def jsToString : JsValue → JStr
  | .undef => jstr "undefined"
  | .nullv => jstr "null"
  | .boolv true => jstr "true"
  | .boolv false => jstr "false"
  | .str s => s
  | .arr elems => List.intercalate [','] (jsArrElems elems)
  | .obj _ => jstr "[object Object]"

/-- Array elements under string conversion: `undefined` and `null` render as
the empty string inside `Array.prototype.join`. -/
def jsArrElems : List JsValue → List JStr
  | [] => []
  | .undef :: rest => [] :: jsArrElems rest
  | .nullv :: rest => [] :: jsArrElems rest
  | v :: rest => jsToString v :: jsArrElems rest

end

/-- A configured unit of work (src/index.js line 100 destructures these three
fields from each entry of `executables`). -/
structure CommandSpec where
  command : JStr
  args : Option (List JStr)
  executor : Option JStr
deriving DecidableEq, Repr

/-- Model of JavaScript `s.endsWith(c)`: `c` is a suffix of `s`. -/
def jsEndsWith (s c : JStr) : Bool := c.isSuffixOf s

/-- The inline resolution step of `execute` (src/index.js line 101):
`foundExecutables.find((executable) => executable.endsWith(command))`. -/
def resolveCommand (foundExecutables : List JStr) (command : JStr) : Option JStr :=
  foundExecutables.find? (fun executable => jsEndsWith executable command)

/-- The direct-mode test of `execute` (src/index.js line 103):
`executor === undefined || executor === null || !executor`.  For an optional
string field this holds exactly when the field is absent or the empty string. -/
def executorFalsy : Option JStr → Bool
  | none => true
  | some s => s.isEmpty

/-- The JavaScript value of the destructured `executor` field: `undefined` when
absent, otherwise the string itself. -/
def executorJsValue : Option JStr → JsValue
  | none => .undef
  | some s => .str s

/-- Truthiness of the optional string `executableToRun` as tested by
`else if (executableToRun)` (src/index.js line 110). -/
def strOptTruthy : Option JStr → Bool
  | none => false
  | some s => !s.isEmpty

/-- The `args ? args.join(' ') : ''` fragment of the command templates. -/
def argsJoin : Option (List JStr) → JStr
  | none => []
  | some l => List.intercalate [' '] l

/-- The command string built by `runShellCommand` (src/index.js line 52):
the template
`command + ' ' + args-join + ' --hookArgs <q>' + JSON.stringify(hookArgs) + '<q> --config <q>' + String(viteConfig) + '<q>'`
with `<q>` the single-quote character `qc`.  The first parameter
(`executableToRun`) is accepted but never used, exactly as in the source. -/
def runShellCommandString (_executableToRun : Option JStr) (args : Option (List JStr))
    (command : JStr) (viteConfig : JsValue) (hookArgs : List JsValue) : JStr :=
  command ++ jstr " " ++ argsJoin args ++ jstr " --hookArgs " ++ qc ::
    jsonArrayStringify hookArgs ++ qc :: jstr " --config " ++ qc ::
    jsToString viteConfig ++ [qc]

/-- The command string built by `runExecutableCommand` (src/index.js line 77):
as `runShellCommandString` but prefixed by the executor and the resolved
executable path. -/
def runExecutableCommandString (executor : JStr) (executableToRun : JStr)
    (args : Option (List JStr)) (viteConfig : JsValue) (hookArgs : List JsValue) : JStr :=
  executor ++ jstr " " ++ executableToRun ++ jstr " " ++ argsJoin args ++
    jstr " --hookArgs " ++ qc :: jsonArrayStringify hookArgs ++ qc ::
    jstr " --config " ++ qc :: jsToString viteConfig ++ [qc]

/-- Outcome of the operating system executing one command line, as observed by
the `exec` callback: an optional error (its string conversion), the captured
standard output and standard error. -/
structure ExecOutcome where
  error : Option JStr
  stdout : JStr
  stderr : JStr
deriving DecidableEq, Repr

/-- The process-execution facility, abstracted as a map from command line to
outcome. -/
abbrev ExecOracle := JStr → ExecOutcome

/-- Observable events of one hook firing: a subprocess spawned with a command
line, a `console.log`, or a `console.error`. -/
inductive Event where
  | spawn (commandLine : JStr)
  | logOut (s : JStr)
  | logErr (s : JStr)
deriving DecidableEq, Repr

/-- Events produced by handing a command line to `exec` and awaiting the
promise inside `execute`'s try/catch: the spawn, then on success a
`console.log` of stdout, on failure a `console.error` of the rejection string
`Error: <error>, stderr: <stderr>` (src/index.js lines 54-60, 104-116). -/
def execEvents (oracle : ExecOracle) (line : JStr) : List Event :=
  match (oracle line).error with
  | none => [.spawn line, .logOut (oracle line).stdout]
  | some e =>
    [.spawn line, .logErr (jstr "Error: " ++ e ++ jstr ", stderr: " ++ (oracle line).stderr)]

/-- One iteration of `execute`'s loop over `executables` (src/index.js lines
100-119): resolve the command against the discovered files, then either run it
directly (passing, as the source does, `executor` in the `viteConfig` slot and
`config` prepended to the hook arguments), run it via the executor (passing
`command` in the `viteConfig` slot), or report the unresolved command. -/
def stepSpec (oracle : ExecOracle) (foundExecutables : List JStr) (config : JsValue)
    (hookArgs : List JsValue) (spec : CommandSpec) : List Event :=
  let executableToRun := resolveCommand foundExecutables spec.command
  if executorFalsy spec.executor then
    execEvents oracle
      (runShellCommandString executableToRun spec.args spec.command
        (executorJsValue spec.executor) (config :: hookArgs))
  else if strOptTruthy executableToRun then
    execEvents oracle
      (runExecutableCommandString (spec.executor.getD []) (executableToRun.getD [])
        spec.args (.str spec.command) (config :: hookArgs))
  else
    [.logErr (jstr "Command " ++ spec.command ++ jstr " not found.")]

/-- The whole loop of `execute` over its `executables` list: each iteration's
events in order; a failure inside an iteration is caught and logged there, so
the loop always proceeds to the next entry. -/
def executeEvents (oracle : ExecOracle) (foundExecutables : List JStr) (config : JsValue)
    (hookArgs : List JsValue) : List CommandSpec → List Event
  | [] => []
  | spec :: rest =>
    stepSpec oracle foundExecutables config hookArgs spec ++
      executeEvents oracle foundExecutables config hookArgs rest

/-- A filesystem entry as `findExecutables` observes it through `fs.readdir`
and `fs.stat`: either a file or a directory with its own entries, listed in
filesystem order.  `readable` records whether `fs.readdir` on the directory
succeeds; when it is false the read rejects. -/
inductive FsEntry where
  | file (name : JStr)
  | dir (name : JStr) (readable : Bool) (entries : List FsEntry)

/-- A search root handed to `findExecutables`: its path together with the
directory contents behind it. -/
structure RootDir where
  path : JStr
  readable : Bool
  entries : List FsEntry

/-- The walk failure: `fs.readdir` rejecting on an unreadable directory. -/
inductive IOError where
  | unreadable (path : JStr)

/-- Model of Node's `path.join(directory, name)` for a directory path and a
single entry name as returned by `fs.readdir` (the only use in the source,
src/index.js line 13): the two joined by a separator, without the generic
normalisation Node additionally applies to irregular inputs. -/
def pathJoin (directory name : JStr) : JStr :=
  if directory = [] then name
  else if directory.getLast? = some '/' then directory ++ name
  else directory ++ '/' :: name

/-- The basename portion of a path: everything after the last separator. -/
def basenamePart (p : JStr) : JStr :=
  ((p.reverse).takeWhile (fun c => !(c == '/'))).reverse

/-- Model of Node's `path.extname`: the final extension of the basename,
empty when the basename has no dot after its first character (so dotfiles such
as `.py` have no extension), with Node's special case for `..`. -/
def extname (p : JStr) : JStr :=
  let b := basenamePart p
  if b = jstr ".." then []
  else
    let revExt := (b.reverse).takeWhile (fun c => !(c == '.'))
    if revExt.length = b.length then []
    else if revExt.length = b.length - 1 then []
    else '.' :: revExt.reverse

mutual

/-- One directory visit of `findExecutables` (src/index.js lines 24-35): the
`readDirectory` call rejects when the directory is unreadable; otherwise each
entry is examined in order. -/
def walkDir (fullPath : JStr) (readable : Bool) (entries : List FsEntry)
    (fileList : List JStr) : Except IOError (List JStr) :=
  if readable then walkChildren fullPath entries fileList
  else .error (.unreadable fullPath)

/-- The inner loop of `findExecutables` over one directory's entries: a
subdirectory is recursed into (`findExecutables([file], fileList)`), a file is
appended to `fileList` when the extension of its joined path is `.py`. -/
def walkChildren (parent : JStr) (entries : List FsEntry) (fileList : List JStr) :
    Except IOError (List JStr) :=
  match entries with
  | [] => .ok fileList
  | .file n :: rest =>
    let p := pathJoin parent n
    walkChildren parent rest (if extname p = jstr ".py" then fileList ++ [p] else fileList)
  | .dir n r sub :: rest =>
    match walkDir (pathJoin parent n) r sub fileList with
    | .error e => .error e
    | .ok acc => walkChildren parent rest acc

end

/-- The outer loop of `findExecutables` over the configured search roots
(src/index.js line 24), threading the shared `fileList` accumulator. -/
def findExecutables : List RootDir → List JStr → Except IOError (List JStr)
  | [], fileList => .ok fileList
  | root :: rest, fileList =>
    match walkDir root.path root.readable root.entries fileList with
    | .error e => .error e
    | .ok acc => findExecutables rest acc

/-- The body of `execute` (src/index.js lines 97-121): discover the
executables (a walk failure rejects the whole call before any command is
examined), log the serialized configuration, then run the loop. -/
def executeModel (oracle : ExecOracle) (executables : List CommandSpec)
    (directoriesToSearch : List RootDir) (hookArgs : List JsValue) (config : JsValue) :
    Except IOError (List Event) :=
  match findExecutables directoriesToSearch [] with
  | .error e => .error e
  | .ok foundExecutables =>
    .ok (.logOut (jstr "Config: " ++ jsonTemplate config) ::
      executeEvents oracle foundExecutables config hookArgs executables)

/-- The command lines of the subprocesses spawned by a completed or aborted
`execute` call (none when the call rejected). -/
def spawnedLines : Except IOError (List Event) → List JStr
  | .error _ => []
  | .ok events => events.filterMap (fun ev => match ev with
      | .spawn line => some line
      | _ => none)

/-- A field of the object returned by `InjectCommands` (src/index.js lines
143-157): the fixed `name` string, the built-in `configResolved` callback that
captures the resolved configuration into `viteConfig`, or a generated hook
handler closing over that hook's `scriptData`. -/
inductive PluginField where
  | nameStr (s : JStr)
  | captureConfig
  | hookHandler (scriptData : JsValue)

/-- The value passed as the plugin's `options` parameter.  `undef` stands for
an absent argument (JavaScript applies the `options = {}` default), `nullv`
for an explicit `null` (which passes the `typeof` check but crashes the
destructuring), `nonObjectPrim` for any value whose `typeof` is not
`"object"`, and `objectv` for an object with an optional `paths` array and
the remaining (hook-name, script-data) entries in declaration order. -/
inductive OptionsValue where
  | undef
  | nullv
  | nonObjectPrim (description : JStr)
  | objectv (paths : Option (List JStr)) (hooks : List (JStr × JsValue))

/-- The synchronous failures of plugin construction: the explicit
`Error('Options must be an object')`, the explicit
`Error('You must specify at least one directory to search for scripts.')`,
and the TypeError JavaScript raises when destructuring `null`.  All three
abort construction, so the plugin is not installed. -/
inductive ConstructError where
  | optionsNotObject
  | noSearchRoots
  | nullDestructureTypeError

/-- The constructed plugin: the captured search paths and the returned object's
fields in literal order (fixed fields first, then the spread hook entries). -/
structure Plugin where
  paths : List JStr
  fields : List (JStr × PluginField)

/-- The field list of the returned plugin object literal (src/index.js lines
143-157): `name` and `configResolved` first, then one generated handler per
hook entry, in the spread's order. -/
def pluginFields (hooks : List (JStr × JsValue)) : List (JStr × PluginField) :=
  (jstr "name", .nameStr (jstr "inject-commands")) ::
  (jstr "configResolved", .captureConfig) ::
  hooks.map (fun kv => (kv.1, .hookHandler kv.2))

/-- Plugin construction, `InjectCommands(options)` (src/index.js lines
131-158): the `typeof` guard, the destructuring of `paths` (defaulting to
`['./']`) and hook entries, and the emptiness check on `paths`.  Construction
is synchronous and performs no directory walk: walking happens only inside the
generated hook handlers, when the host later fires a hook. -/
def InjectCommands : OptionsValue → Except ConstructError Plugin
  | .undef => .ok ⟨[jstr "./"], pluginFields []⟩
  | .nullv => .error .nullDestructureTypeError
  | .nonObjectPrim _ => .error .optionsNotObject
  | .objectv pathsOpt hooks =>
    let paths := pathsOpt.getD [jstr "./"]
    if paths.isEmpty then .error .noSearchRoots
    else .ok ⟨paths, pluginFields hooks⟩

/-- Property lookup on an object literal's field list: in JavaScript a later
entry with the same key overwrites an earlier one, so the effective binding is
the last occurrence. -/
def jsObjGet (fields : List (JStr × PluginField)) (key : JStr) : Option PluginField :=
  ((fields.reverse).find? (fun kv => kv.1 == key)).map (fun kv => kv.2)

/-- The value held by the plugin's `viteConfig` variable after the host fires
its configuration-resolved signal with `resolvedConfig`: the signal invokes the
plugin object's effective `configResolved` property, which assigns `viteConfig`
only when it is the built-in callback; otherwise `viteConfig` keeps its initial
`undefined`. -/
def capturedConfig (hooks : List (JStr × JsValue)) (resolvedConfig : JsValue) : JsValue :=
  match jsObjGet (pluginFields hooks) (jstr "configResolved") with
  | some .captureConfig => resolvedConfig
  | _ => .undef

mutual

/-- The `.py` file paths below one entry, in walk order (the pure shape of the
walker's contribution for that entry). -/
def pyEntry (parent : JStr) : FsEntry → List JStr
  | .file n =>
    let p := pathJoin parent n
    if extname p = jstr ".py" then [p] else []
  | .dir n _ sub => pyList (pathJoin parent n) sub

/-- The `.py` file paths below a list of sibling entries, in walk order. -/
def pyList (parent : JStr) : List FsEntry → List JStr
  | [] => []
  | e :: rest => pyEntry parent e ++ pyList parent rest

end

mutual

/-- All file paths (any extension) below one entry, in walk order. -/
def filesEntry (parent : JStr) : FsEntry → List JStr
  | .file n => [pathJoin parent n]
  | .dir n _ sub => filesList (pathJoin parent n) sub

/-- All file paths below a list of sibling entries, in walk order. -/
def filesList (parent : JStr) : List FsEntry → List JStr
  | [] => []
  | e :: rest => filesEntry parent e ++ filesList parent rest

end

mutual

/-- Every directory below (and including the surroundings of) an entry is
readable, so the walk traverses it without rejecting. -/
def allReadableEntry : FsEntry → Bool
  | .file _ => true
  | .dir _ r sub => r && allReadableList sub

/-- Readability of a list of sibling entries. -/
def allReadableList : List FsEntry → Bool
  | [] => true
  | e :: rest => allReadableEntry e && allReadableList rest

end

/-- The name of an entry as listed by its parent directory. -/
def entryName : FsEntry → JStr
  | .file n => n
  | .dir n _ _ => n

/-- A plain directory-entry name: nonempty and free of the path separator, as
every name returned by `fs.readdir` is. -/
def simpleName (n : JStr) : Bool := !n.isEmpty && !n.any (fun c => c == '/')

mutual

/-- Well-formedness of an entry as a real filesystem provides it: its name is
a plain entry name and its contents are well-formed. -/
def wfEntry : FsEntry → Bool
  | .file n => simpleName n
  | .dir n _ sub => simpleName n && wfList sub

/-- Well-formedness of a directory's entry list: each entry well-formed and
sibling names distinct (a directory cannot hold two entries of one name). -/
def wfList : List FsEntry → Bool
  | [] => true
  | e :: rest =>
    wfEntry e && wfList rest && !(rest.map entryName).any (fun m => m == entryName e)

end

/-- A well-behaved root path: nonempty and not ending in the separator, so
joining a name appends `/name`. -/
def goodPath (p : JStr) : Bool := !p.isEmpty && !(p.getLast? == some '/')

/-- Well-formedness of a search root: a well-behaved path and a well-formed
tree behind it. -/
def wfRoot (r : RootDir) : Bool := goodPath r.path && wfList r.entries

/-- Full readability of a search root. -/
def rootReadable (r : RootDir) : Bool := r.readable && allReadableList r.entries

/-- The `.py` file paths below a search root, in walk order. -/
def rootPyFiles (r : RootDir) : List JStr := pyList r.path r.entries

/-- All file paths below a list of search roots, in walk order. -/
def rootsAllFiles (roots : List RootDir) : List JStr :=
  (roots.map (fun r => filesList r.path r.entries)).flatten

/-- Shape of the part of a walked path that follows a sibling's name: empty
(the path is the sibling itself) or continuing with a separator (the path lies
below the sibling directory). -/
def goodTail (r : JStr) : Prop := r = [] ∨ ∃ t, r = '/' :: t

/-- Rendering of one extra argument as claim C7 describes it (transcribed from
the specification's words, for comparison with the source's behaviour): a
string is appended unmodified, any other value as its compact JSON encoding. -/
def specExtraArg (v : JsValue) : JStr :=
  match v with
  | .str s => s
  | v => jsonTemplate v

/-- The constructed command line as claim C7 describes it (transcribed from
the specification's words): command, arguments and rendered extra arguments
joined by single spaces with no shell-escaping. -/
def specCommandLine (command : JStr) (args : List JStr) (extras : List JsValue) : JStr :=
  List.intercalate [' '] ([command] ++ args ++ extras.map specExtraArg)

/-- The command line `execute` actually produces for a direct-mode spec with
command `c`, no `args`, a captured `null` configuration and the single string
hook argument `hi`: note the doubled space (the absent `args` still contributes
a separator), the JSON-quoted rendering of `hi` inside the serialized argument
array, and the executor (`undefined`) in the `--config` slot. -/
def directLineNullHi : JStr :=
  jstr "c  --hookArgs " ++ qc :: jstr "[null,\"hi\"]" ++ qc :: jstr " --config " ++
    qc :: jstr "undefined" ++ [qc]

/-- The command line `execute` actually produces for the claim C1 scenario
(direct mode, command `echo`, args `["hi"]`, no captured configuration, no
hook arguments): the `--hookArgs`/`--config` suffix is always appended. -/
def echoLineActual : JStr :=
  jstr "echo hi --hookArgs " ++ qc :: jstr "[null]" ++ qc :: jstr " --config " ++
    qc :: jstr "undefined" ++ [qc]

/-- An execution oracle for the isolation scenario: any command line whose
command token is `bad` exits non-zero, every other line succeeds with output
`done`. -/
def isolationOracle : ExecOracle := fun line =>
  if line.take 4 = jstr "bad " then ⟨some (jstr "exit 1"), [], jstr "boom"⟩
  else ⟨none, jstr "done", []⟩

/-- A small concrete search root used to evaluate the walker theorems: a `.py`
file, a nested readable directory holding a second `.py` file and a `.txt`
file, all below the root path `/r`. -/
def sampleRoot : RootDir :=
  ⟨jstr "/r", true,
    [.file (jstr "a.py"),
     .dir (jstr "d") true [.file (jstr "b.py"), .file (jstr "c.txt")],
     .file (jstr "e.md")]⟩

/-- A concrete search root whose nested directory is unreadable. -/
def brokenRoot : RootDir :=
  ⟨jstr "/r", true, [.file (jstr "a.py"), .dir (jstr "d") false [.file (jstr "b.py")]]⟩

/-- The command line `execute` actually produces for an executor-mode spec
with executor `python`, command `a.py` resolved to `/r/a.py`, no `args`, no
captured configuration and no hook arguments: note the command name (not the
configuration) in the `--config` slot. -/
def execLineSample : JStr :=
  jstr "python /r/a.py  --hookArgs " ++ qc :: jstr "[null]" ++ qc :: jstr " --config " ++
    qc :: jstr "a.py" ++ [qc]

theorem pathJoin_good {parent : JStr} (n : JStr) (h : goodPath parent = true) :
    pathJoin parent n = parent ++ '/' :: n := by
  have h1 : parent ≠ [] := by
    intro hp
    subst hp
    simp [goodPath] at h
  have h2 : parent.getLast? ≠ some '/' := by
    intro hp
    simp [goodPath, hp] at h
  simp [pathJoin, h1, h2]

theorem goodPath_extend {parent n : JStr} (hp : goodPath parent = true)
    (hn : simpleName n = true) : goodPath (pathJoin parent n) = true := by
  rw [pathJoin_good n hp]
  simp only [simpleName, Bool.and_eq_true, Bool.not_eq_true'] at hn
  obtain ⟨hne, hnosl⟩ := hn
  have hne' : n ≠ [] := by
    intro h0
    subst h0
    simp at hne
  have hlast : ∃ c, n.getLast? = some c ∧ c ≠ '/' := by
    cases hgl : n.getLast? with
    | none => rw [List.getLast?_eq_none_iff] at hgl; exact absurd hgl hne'
    | some c =>
      refine ⟨c, rfl, fun hc => ?_⟩
      rw [List.any_eq_false] at hnosl
      exact hnosl c (List.mem_of_mem_getLast? hgl) (by simp [hc])
  obtain ⟨c, hgl, hc⟩ := hlast
  have hfull : (parent ++ '/' :: n).getLast? = some c := by
    rw [List.getLast?_append]
    have : ('/' :: n).getLast? = some c := by
      cases n with
      | nil => exact absurd rfl hne'
      | cons a l => rw [List.getLast?_cons_cons]; exact hgl
    rw [this]
    rfl
  simp [goodPath, hfull, hc]

theorem walkDir_true (p : JStr) (es : List FsEntry) (acc : List JStr) :
    walkDir p true es acc = walkChildren p es acc := by
  rw [walkDir]
  simp

theorem walkDir_false (p : JStr) (es : List FsEntry) (acc : List JStr) :
    walkDir p false es acc = .error (.unreadable p) := by
  rw [walkDir]
  simp

theorem walkChildren_ok (parent : JStr) :
    (entries : List FsEntry) → (fileList : List JStr) →
    allReadableList entries = true →
    walkChildren parent entries fileList = .ok (fileList ++ pyList parent entries)
  | [], fileList, _ => by simp [walkChildren, pyList]
  | .file n :: rest, fileList, h => by
    have hr : allReadableList rest = true := by
      simpa [allReadableList, allReadableEntry] using h
    rw [walkChildren, walkChildren_ok parent rest _ hr]
    by_cases hpy : extname (pathJoin parent n) = jstr ".py"
    · simp [hpy, pyList, pyEntry, List.append_assoc]
    · simp [hpy, pyList, pyEntry]
  | .dir n r sub :: rest, fileList, h => by
    have h1 : r = true ∧ allReadableList sub = true ∧ allReadableList rest = true := by
      simpa [allReadableList, allReadableEntry, and_assoc] using h
    obtain ⟨hr, hsub, hrest⟩ := h1
    subst hr
    rw [walkChildren, walkDir_true, walkChildren_ok (pathJoin parent n) sub fileList hsub]
    simp [pyList, pyEntry, walkChildren_ok parent rest _ hrest, List.append_assoc]

theorem walkChildren_err (parent : JStr) :
    (entries : List FsEntry) → (fileList : List JStr) →
    allReadableList entries = false →
    ∃ e, walkChildren parent entries fileList = .error e
  | [], _, h => by simp [allReadableList] at h
  | .file n :: rest, fileList, h => by
    have hr : allReadableList rest = false := by
      simpa [allReadableList, allReadableEntry] using h
    rw [walkChildren]
    exact walkChildren_err parent rest _ hr
  | .dir n r sub :: rest, fileList, h => by
    rw [walkChildren]
    cases r with
    | false =>
      rw [walkDir_false]
      exact ⟨.unreadable (pathJoin parent n), rfl⟩
    | true =>
      rw [walkDir_true]
      cases hsub : allReadableList sub with
      | false =>
        obtain ⟨e, he⟩ := walkChildren_err (pathJoin parent n) sub fileList hsub
        rw [he]
        exact ⟨e, rfl⟩
      | true =>
        have hrest : allReadableList rest = false := by
          simpa [allReadableList, allReadableEntry, hsub] using h
        rw [walkChildren_ok (pathJoin parent n) sub fileList hsub]
        exact walkChildren_err parent rest _ hrest

theorem findExecutables_ok :
    (roots : List RootDir) → (acc : List JStr) →
    roots.all rootReadable = true →
    findExecutables roots acc = .ok (acc ++ (roots.map rootPyFiles).flatten)
  | [], acc, _ => by simp [findExecutables]
  | root :: rest, acc, h => by
    have h1 : rootReadable root = true ∧ rest.all rootReadable = true := by
      simpa [List.all_cons] using h
    obtain ⟨hroot, hrest⟩ := h1
    have h2 : root.readable = true ∧ allReadableList root.entries = true := by
      simpa [rootReadable] using hroot
    rw [findExecutables, h2.1, walkDir_true, walkChildren_ok root.path root.entries acc h2.2]
    simp [findExecutables_ok rest _ hrest, rootPyFiles, List.append_assoc]

theorem findExecutables_err :
    (roots : List RootDir) → (acc : List JStr) →
    (∃ r ∈ roots, rootReadable r = false) →
    ∃ e, findExecutables roots acc = .error e
  | [], _, h => by simp at h
  | root :: rest, acc, h => by
    rw [findExecutables]
    cases hroot : rootReadable root with
    | false =>
      cases hread : root.readable with
      | false =>
        rw [walkDir_false]
        exact ⟨.unreadable root.path, rfl⟩
      | true =>
        have hsub : allReadableList root.entries = false := by
          simpa [rootReadable, hread] using hroot
        rw [walkDir_true]
        obtain ⟨e, he⟩ := walkChildren_err root.path root.entries acc hsub
        rw [he]
        exact ⟨e, rfl⟩
    | true =>
      have hbad : ∃ r ∈ rest, rootReadable r = false := by
        obtain ⟨r, hr, hrb⟩ := h
        cases hr with
        | head => rw [hroot] at hrb; exact absurd hrb (by simp)
        | tail _ hmem => exact ⟨r, hmem, hrb⟩
      have h2 : root.readable = true ∧ allReadableList root.entries = true := by
        simpa [rootReadable] using hroot
      rw [h2.1, walkDir_true, walkChildren_ok root.path root.entries acc h2.2]
      exact findExecutables_err rest _ hbad

theorem simpleName_noSlash {n : JStr} (h : simpleName n = true) :
    n.any (fun c => c == '/') = false := by
  simp only [simpleName, Bool.and_eq_true, Bool.not_eq_true'] at h
  exact h.2

theorem wfEntry_simpleName (e : FsEntry) (h : wfEntry e = true) :
    simpleName (entryName e) = true := by
  cases e with
  | file n => simpa [wfEntry, entryName] using h
  | dir n r sub =>
    simp only [wfEntry, Bool.and_eq_true] at h
    simpa [entryName] using h.1

theorem wfList_mem : (es : List FsEntry) → wfList es = true → ∀ e ∈ es, wfEntry e = true
  | [], _, e, h => by simp at h
  | a :: rest, hw, e, h => by
    have hw1 : wfEntry a = true ∧ wfList rest = true := by
      simp only [wfList, Bool.and_eq_true] at hw
      exact ⟨hw.1.1, hw.1.2⟩
    cases h with
    | head => exact hw1.1
    | tail _ hmem => exact wfList_mem rest hw1.2 e hmem

theorem takeWhile_plain : (n r : JStr) → n.any (fun c => c == '/') = false → goodTail r →
    (n ++ r).takeWhile (fun c => !(c == '/')) = n
  | [], r, _, hr => by
    cases hr with
    | inl h0 => subst h0; simp
    | inr h0 => obtain ⟨t, rfl⟩ := h0; simp [List.takeWhile_cons]
  | c :: cs, r, h, hr => by
    have h1 : (c == '/') = false ∧ cs.any (fun x => x == '/') = false := by
      simpa [List.any_cons] using h
    simp [List.takeWhile_cons, h1.1, takeWhile_plain cs r h1.2 hr]

mutual

theorem pyEntry_shape (parent : JStr) :
    (e : FsEntry) → wfEntry e = true → goodPath parent = true →
    ∀ p ∈ pyEntry parent e, ∃ r, p = parent ++ '/' :: (entryName e ++ r) ∧ goodTail r
  | .file n, _, hp => by
    intro p hmem
    simp only [pyEntry] at hmem
    by_cases hpy : extname (pathJoin parent n) = jstr ".py"
    · rw [if_pos hpy] at hmem
      simp only [List.mem_singleton] at hmem
      subst hmem
      refine ⟨[], ?_, Or.inl rfl⟩
      rw [pathJoin_good n hp]
      simp [entryName]
    · rw [if_neg hpy] at hmem
      simp at hmem
  | .dir n r sub, hw, hp => by
    intro p hmem
    simp only [pyEntry] at hmem
    have hw' : simpleName n = true ∧ wfList sub = true := by
      simpa [wfEntry, Bool.and_eq_true] using hw
    obtain ⟨e', _, r', hshape, _⟩ :=
      pyList_shape (pathJoin parent n) sub hw'.2 (goodPath_extend hp hw'.1) p hmem
    rw [pathJoin_good n hp] at hshape
    refine ⟨'/' :: (entryName e' ++ r'), ?_, Or.inr ⟨_, rfl⟩⟩
    rw [hshape]
    simp [entryName, List.append_assoc]

theorem pyList_shape (parent : JStr) :
    (es : List FsEntry) → wfList es = true → goodPath parent = true →
    ∀ p ∈ pyList parent es,
      ∃ e ∈ es, ∃ r, p = parent ++ '/' :: (entryName e ++ r) ∧ goodTail r
  | [], _, _ => by
    intro p hmem
    simp [pyList] at hmem
  | e :: rest, hw, hp => by
    intro p hmem
    have hw1 : wfEntry e = true ∧ wfList rest = true := by
      simp only [wfList, Bool.and_eq_true] at hw
      exact ⟨hw.1.1, hw.1.2⟩
    simp only [pyList, List.mem_append] at hmem
    cases hmem with
    | inl h1 =>
      obtain ⟨r, hr, ht⟩ := pyEntry_shape parent e hw1.1 hp p h1
      exact ⟨e, List.mem_cons_self e rest, r, hr, ht⟩
    | inr h2 =>
      obtain ⟨e', he', r, hr, ht⟩ := pyList_shape parent rest hw1.2 hp p h2
      exact ⟨e', List.mem_cons_of_mem e he', r, hr, ht⟩

end

mutual

theorem pyEntry_nodup (parent : JStr) :
    (e : FsEntry) → wfEntry e = true → goodPath parent = true → (pyEntry parent e).Nodup
  | .file n, _, _ => by
    simp only [pyEntry]
    by_cases hpy : extname (pathJoin parent n) = jstr ".py" <;> simp [hpy]
  | .dir n r sub, hw, hp => by
    simp only [pyEntry]
    have hw' : simpleName n = true ∧ wfList sub = true := by
      simpa [wfEntry, Bool.and_eq_true] using hw
    exact pyList_nodup (pathJoin parent n) sub hw'.2 (goodPath_extend hp hw'.1)

theorem pyList_nodup (parent : JStr) :
    (es : List FsEntry) → wfList es = true → goodPath parent = true → (pyList parent es).Nodup
  | [], _, _ => by simp [pyList]
  | e :: rest, hw, hp => by
    have hw1 : wfEntry e = true ∧ wfList rest = true := by
      simp only [wfList, Bool.and_eq_true] at hw
      exact ⟨hw.1.1, hw.1.2⟩
    have hw2 : (rest.map entryName).any (fun m => m == entryName e) = false := by
      simp only [wfList, Bool.and_eq_true, Bool.not_eq_true'] at hw
      exact hw.2
    simp only [pyList]
    refine List.Nodup.append (pyEntry_nodup parent e hw1.1 hp)
      (pyList_nodup parent rest hw1.2 hp) ?_
    intro p hp1 hp2
    obtain ⟨r1, hr1, ht1⟩ := pyEntry_shape parent e hw1.1 hp p hp1
    obtain ⟨e', he', r2, hr2, ht2⟩ := pyList_shape parent rest hw1.2 hp p hp2
    have h3 : '/' :: (entryName e ++ r1) = '/' :: (entryName e' ++ r2) :=
      List.append_cancel_left (hr1.symm.trans hr2)
    have hcancel : entryName e ++ r1 = entryName e' ++ r2 := by
      injection h3
    have hse : simpleName (entryName e) = true := wfEntry_simpleName e hw1.1
    have hse' : simpleName (entryName e') = true :=
      wfEntry_simpleName e' (wfList_mem rest hw1.2 e' he')
    have t1 := takeWhile_plain (entryName e) r1 (simpleName_noSlash hse) ht1
    have t2 := takeWhile_plain (entryName e') r2 (simpleName_noSlash hse') ht2
    rw [hcancel] at t1
    have hnames : entryName e' = entryName e := t2.symm.trans t1
    rw [List.any_eq_false] at hw2
    exact hw2 (entryName e') (List.mem_map_of_mem entryName he') (by simp [hnames])

end

mutual

theorem pyEntry_filter (parent : JStr) :
    (e : FsEntry) →
    pyEntry parent e = (filesEntry parent e).filter (fun p => extname p == jstr ".py")
  | .file n => by
    simp only [pyEntry, filesEntry, List.filter]
    by_cases hpy : extname (pathJoin parent n) = jstr ".py"
    · have hb : (extname (pathJoin parent n) == jstr ".py") = true := beq_iff_eq.mpr hpy
      simp [hpy, hb]
    · have hb : (extname (pathJoin parent n) == jstr ".py") = false :=
        beq_eq_false_iff_ne.mpr hpy
      simp [hpy, hb]
  | .dir n r sub => by
    simp only [pyEntry, filesEntry]
    exact pyList_filter (pathJoin parent n) sub

theorem pyList_filter (parent : JStr) :
    (es : List FsEntry) →
    pyList parent es = (filesList parent es).filter (fun p => extname p == jstr ".py")
  | [] => by simp [pyList, filesList]
  | e :: rest => by
    simp only [pyList, filesList, List.filter_append]
    rw [pyEntry_filter parent e, pyList_filter parent rest]

end

theorem rootPyFiles_filter (r : RootDir) :
    rootPyFiles r = (filesList r.path r.entries).filter (fun p => extname p == jstr ".py") :=
  pyList_filter r.path r.entries

theorem count_one_of_nodup {l : List JStr} {p : JStr} (h : l.Nodup) (hp : p ∈ l) :
    l.count p = 1 := by
  induction l with
  | nil => simp at hp
  | cons b t ih =>
    rw [List.nodup_cons] at h
    rw [List.count_cons]
    rcases List.mem_cons.mp hp with rfl | hmem
    · rw [List.count_eq_zero.mpr h.1]
      simp
    · have hb : ¬b = p := fun hbp => h.1 (hbp ▸ hmem)
      rw [ih h.2 hmem, beq_eq_false_iff_ne.mpr hb]
      simp

/-- Claim C5: for every well-formed directory forest reachable from the search
roots (plain distinct sibling names, all directories readable, roots covering
disjoint trees), the walker succeeds and its result contains the full path of
every file whose extension is `.py` — at arbitrary nesting depth — exactly
once, and contains no path of a file without that extension. -/
theorem findExecutables_complete_unique (roots : List RootDir)
    (hwf : roots.all wfRoot = true) (hread : roots.all rootReadable = true)
    (hdisj : List.Pairwise (fun a b => ∀ p, p ∈ rootPyFiles a → p ∉ rootPyFiles b) roots) :
    ∃ L, findExecutables roots [] = .ok L ∧
      (∀ p, p ∈ L ↔ p ∈ rootsAllFiles roots ∧ extname p = jstr ".py") ∧
      ∀ p ∈ L, L.count p = 1 := by
  refine ⟨(roots.map rootPyFiles).flatten, by simpa using findExecutables_ok roots [] hread,
    ?_, ?_⟩
  · intro p
    constructor
    · intro hmem
      rw [List.mem_flatten] at hmem
      obtain ⟨l, hl, hpl⟩ := hmem
      rw [List.mem_map] at hl
      obtain ⟨r, hr, rfl⟩ := hl
      rw [rootPyFiles_filter, List.mem_filter] at hpl
      refine ⟨?_, beq_iff_eq.mp hpl.2⟩
      rw [rootsAllFiles, List.mem_flatten]
      exact ⟨filesList r.path r.entries, List.mem_map_of_mem _ hr, hpl.1⟩
    · intro hand
      obtain ⟨hall, hext⟩ := hand
      rw [rootsAllFiles, List.mem_flatten] at hall
      obtain ⟨l, hl, hpl⟩ := hall
      rw [List.mem_map] at hl
      obtain ⟨r, hr, rfl⟩ := hl
      rw [List.mem_flatten]
      refine ⟨rootPyFiles r, List.mem_map_of_mem _ hr, ?_⟩
      rw [rootPyFiles_filter, List.mem_filter]
      exact ⟨hpl, beq_iff_eq.mpr hext⟩
  · have hnd : ((roots.map rootPyFiles).flatten).Nodup := by
      rw [List.nodup_flatten]
      constructor
      · intro l hl
        rw [List.mem_map] at hl
        obtain ⟨r, hr, rfl⟩ := hl
        have hwfr : wfRoot r = true := by
          rw [List.all_eq_true] at hwf
          exact hwf r hr
        have h2 : goodPath r.path = true ∧ wfList r.entries = true := by
          simpa [wfRoot, Bool.and_eq_true] using hwfr
        exact pyList_nodup r.path r.entries h2.2 h2.1
      · rw [List.pairwise_map]
        exact hdisj.imp (fun hab p hpa hpb => hab p hpa hpb)
    intro p hp
    exact count_one_of_nodup hnd hp

/-- Witness for claim C5: the walker theorem applied to the concrete sample
root, whose hypotheses all hold by evaluation. -/
theorem findExecutables_complete_unique_witness :
    ∃ L, findExecutables [sampleRoot] [] = .ok L ∧
      (∀ p, p ∈ L ↔ p ∈ rootsAllFiles [sampleRoot] ∧ extname p = jstr ".py") ∧
      ∀ p ∈ L, L.count p = 1 :=
  findExecutables_complete_unique [sampleRoot] (by decide) (by decide) (by simp)

/-- Claim C6: if reading any search root or nested directory fails during the
walk, the IOError propagates and aborts that hook firing's entire command
batch: `execute` rejects before any CommandSpec is resolved or invoked, no
subprocess is spawned, and no partial discovery result is used. -/
theorem walk_failure_aborts_batch (oracle : ExecOracle) (executables : List CommandSpec)
    (roots : List RootDir) (hookArgs : List JsValue) (config : JsValue) (r : RootDir)
    (hr : r ∈ roots) (hbad : rootReadable r = false) :
    ∃ e, executeModel oracle executables roots hookArgs config = .error e ∧
      spawnedLines (executeModel oracle executables roots hookArgs config) = [] := by
  obtain ⟨e, he⟩ := findExecutables_err roots [] ⟨r, hr, hbad⟩
  refine ⟨e, ?_, ?_⟩ <;> simp [executeModel, he, spawnedLines]

/-- Witness for claim C6: a concrete root whose nested directory is
unreadable aborts the whole batch even though a resolvable command and a
healthy sibling file exist. -/
theorem walk_failure_aborts_batch_witness :
    ∃ e, executeModel (fun _ => ⟨none, [], []⟩) [⟨jstr "a.py", none, none⟩] [brokenRoot] []
        .undef = .error e ∧
      spawnedLines (executeModel (fun _ => ⟨none, [], []⟩) [⟨jstr "a.py", none, none⟩]
        [brokenRoot] [] .undef) = [] :=
  walk_failure_aborts_batch (fun _ => ⟨none, [], []⟩) [⟨jstr "a.py", none, none⟩] [brokenRoot]
    [] .undef brokenRoot (by simp) (by decide)

theorem find?_first {α : Type} {p : α → Bool} :
    (l : List α) → (x : α) → l.find? p = some x →
    ∃ l₁ l₂, l = l₁ ++ x :: l₂ ∧ p x = true ∧ ∀ y ∈ l₁, p y = false
  | [], x, h => by simp at h
  | a :: rest, x, h => by
    by_cases hp : p a = true
    · rw [List.find?_cons_of_pos rest hp] at h
      injection h with h
      subst h
      exact ⟨[], rest, rfl, hp, by simp⟩
    · rw [List.find?_cons_of_neg rest hp] at h
      obtain ⟨l₁, l₂, rfl, hx, hall⟩ := find?_first rest x h
      refine ⟨a :: l₁, l₂, rfl, hx, ?_⟩
      intro y hy
      rcases List.mem_cons.mp hy with rfl | hmem
      · revert hp
        cases p y <;> simp
      · exact hall y hmem

/-- Claim C2: for every list of discovered files and every command string,
resolution returns the first discovered file, in discovered-file order, whose
path ends with the literal command string; and when no discovered path has
that suffix no error is raised — resolution yields the absent value `none`,
which the caller must test. -/
theorem resolveCommand_first_suffix_match (foundExecutables : List JStr) (command : JStr) :
    (∀ x, resolveCommand foundExecutables command = some x →
      ∃ l₁ l₂, foundExecutables = l₁ ++ x :: l₂ ∧ jsEndsWith x command = true ∧
        ∀ y ∈ l₁, jsEndsWith y command = false) ∧
    (resolveCommand foundExecutables command = none ↔
      ∀ y ∈ foundExecutables, jsEndsWith y command = false) := by
  constructor
  · intro x h
    exact find?_first foundExecutables x h
  · rw [resolveCommand, List.find?_eq_none]
    constructor
    · intro h y hy
      have h2 := h y hy
      revert h2
      cases jsEndsWith y command <;> simp
    · intro h y hy
      rw [h y hy]
      simp

/-- Witness for claim C2 at the specification's own ambiguity example: with
discovered files `/a/b/build.py` then `/a/prebuild.py` and command `build.py`,
resolution returns the first match in discovered-file order, and the theorem
produces its decomposition. -/
theorem resolveCommand_first_suffix_match_witness :
    resolveCommand [jstr "/a/b/build.py", jstr "/a/prebuild.py"] (jstr "build.py") =
      some (jstr "/a/b/build.py") ∧
    ∃ l₁ l₂, [jstr "/a/b/build.py", jstr "/a/prebuild.py"] =
        l₁ ++ jstr "/a/b/build.py" :: l₂ ∧
      jsEndsWith (jstr "/a/b/build.py") (jstr "build.py") = true ∧
      ∀ y ∈ l₁, jsEndsWith y (jstr "build.py") = false :=
  ⟨by decide,
    (resolveCommand_first_suffix_match [jstr "/a/b/build.py", jstr "/a/prebuild.py"]
      (jstr "build.py")).1 (jstr "/a/b/build.py") (by decide)⟩

theorem execEvents_ok (oracle : ExecOracle) (line : JStr)
    (h : (oracle line).error = none) :
    execEvents oracle line = [.spawn line, .logOut (oracle line).stdout] := by
  rw [execEvents, h]

theorem execEvents_err (oracle : ExecOracle) (line : JStr) (e : JStr)
    (h : (oracle line).error = some e) :
    execEvents oracle line = [.spawn line,
      .logErr (jstr "Error: " ++ e ++ jstr ", stderr: " ++ (oracle line).stderr)] := by
  rw [execEvents, h]

theorem stepSpec_direct (oracle : ExecOracle) (foundExecutables : List JStr)
    (config : JsValue) (hookArgs : List JsValue) (spec : CommandSpec)
    (h : executorFalsy spec.executor = true) :
    stepSpec oracle foundExecutables config hookArgs spec =
      execEvents oracle
        (runShellCommandString (resolveCommand foundExecutables spec.command) spec.args
          spec.command (executorJsValue spec.executor) (config :: hookArgs)) := by
  simp [stepSpec, h]

/-- Claim C3: for a CommandSpec with a non-empty executor whose command string
is a suffix of no discovered file, the invocation is skipped: the only event
is a `console.error` naming the unresolved command, and no subprocess is
spawned for that CommandSpec. -/
theorem executorMode_unresolved_skipped (oracle : ExecOracle)
    (foundExecutables : List JStr) (config : JsValue) (hookArgs : List JsValue)
    (spec : CommandSpec) (hexec : executorFalsy spec.executor = false)
    (hnomatch : ∀ f ∈ foundExecutables, jsEndsWith f spec.command = false) :
    stepSpec oracle foundExecutables config hookArgs spec =
      [.logErr (jstr "Command " ++ spec.command ++ jstr " not found.")] ∧
    ∀ line, Event.spawn line ∉ stepSpec oracle foundExecutables config hookArgs spec := by
  have hres : resolveCommand foundExecutables spec.command = none := by
    rw [resolveCommand, List.find?_eq_none]
    intro y hy
    rw [hnomatch y hy]
    simp
  have hstep : stepSpec oracle foundExecutables config hookArgs spec =
      [.logErr (jstr "Command " ++ spec.command ++ jstr " not found.")] := by
    simp [stepSpec, hres, hexec, strOptTruthy]
  refine ⟨hstep, ?_⟩
  rw [hstep]
  intro line h
  simp at h

/-- Witness for claim C3: a concrete executor-mode spec whose command matches
no discovered file produces exactly the not-found report and spawns nothing. -/
theorem executorMode_unresolved_skipped_witness :
    stepSpec (fun _ => ⟨none, [], []⟩) [jstr "/a/b.py"] .undef []
        ⟨jstr "x.py", none, some (jstr "python")⟩ =
      [.logErr (jstr "Command x.py not found.")] ∧
    ∀ line, Event.spawn line ∉ stepSpec (fun _ => ⟨none, [], []⟩) [jstr "/a/b.py"] .undef []
        ⟨jstr "x.py", none, some (jstr "python")⟩ :=
  executorMode_unresolved_skipped (fun _ => ⟨none, [], []⟩) [jstr "/a/b.py"] .undef []
    ⟨jstr "x.py", none, some (jstr "python")⟩ (by decide) (by decide)

/-- Claim C4: within one hook firing, failures are isolated per CommandSpec:
the event stream of a batch is the concatenation of the event streams of its
parts, so a resolution or subprocess failure of an earlier command — which is
only logged — cannot prevent a later CommandSpec from being resolved and
invoked; in a two-command batch both commands are attempted, and a valid
direct-mode second command succeeds (its stdout is logged) regardless of the
first command's outcome. -/
theorem execute_failure_isolation (oracle : ExecOracle) (foundExecutables : List JStr)
    (config : JsValue) (hookArgs : List JsValue) :
    (∀ specs₁ specs₂,
      executeEvents oracle foundExecutables config hookArgs (specs₁ ++ specs₂) =
        executeEvents oracle foundExecutables config hookArgs specs₁ ++
          executeEvents oracle foundExecutables config hookArgs specs₂) ∧
    (∀ s₁ s₂, executeEvents oracle foundExecutables config hookArgs [s₁, s₂] =
      stepSpec oracle foundExecutables config hookArgs s₁ ++
        stepSpec oracle foundExecutables config hookArgs s₂) ∧
    (∀ s₁ s₂ : CommandSpec, executorFalsy s₂.executor = true →
      (oracle (runShellCommandString (resolveCommand foundExecutables s₂.command) s₂.args
        s₂.command (executorJsValue s₂.executor) (config :: hookArgs))).error = none →
      Event.logOut (oracle (runShellCommandString (resolveCommand foundExecutables s₂.command)
          s₂.args s₂.command (executorJsValue s₂.executor) (config :: hookArgs))).stdout ∈
        executeEvents oracle foundExecutables config hookArgs [s₁, s₂]) := by
  refine ⟨?_, ?_, ?_⟩
  · intro specs₁ specs₂
    induction specs₁ with
    | nil => simp [executeEvents]
    | cons s rest ih => simp [executeEvents, ih, List.append_assoc]
  · intro s₁ s₂
    simp [executeEvents]
  · intro s₁ s₂ hdir hok
    have h2 : executeEvents oracle foundExecutables config hookArgs [s₁, s₂] =
        stepSpec oracle foundExecutables config hookArgs s₁ ++
          stepSpec oracle foundExecutables config hookArgs s₂ := by
      simp [executeEvents]
    rw [h2, stepSpec_direct oracle foundExecutables config hookArgs s₂ hdir,
      execEvents_ok _ _ hok]
    simp

/-- Witness for claim C4: a concrete two-command batch against the isolation
oracle — the first command exits non-zero and is only logged, the second is
still invoked and its stdout logged. -/
theorem execute_failure_isolation_witness :
    Event.logOut (jstr "done") ∈ executeEvents isolationOracle [] .undef []
      [⟨jstr "bad", none, none⟩, ⟨jstr "ok", none, none⟩] ∧
    Event.logErr (jstr "Error: exit 1, stderr: boom") ∈ executeEvents isolationOracle []
      .undef [] [⟨jstr "bad", none, none⟩, ⟨jstr "ok", none, none⟩] :=
  ⟨(execute_failure_isolation isolationOracle [] .undef []).2.2 ⟨jstr "bad", none, none⟩
      ⟨jstr "ok", none, none⟩ (by decide) (by decide),
    by decide⟩

theorem execEvents_head (oracle : ExecOracle) (line : JStr) :
    ∃ rest, execEvents oracle line = Event.spawn line :: rest := by
  cases h : (oracle line).error with
  | none => exact ⟨_, execEvents_ok oracle line h⟩
  | some e => exact ⟨_, execEvents_err oracle line e h⟩

/-- Counterexample to claim C1: in the direct-mode scenario with command
`echo`, args `["hi"]`, no executor and no extra hook arguments (and no
captured configuration), the executed command line is not `echo hi`: the
invoker unconditionally appends the `--hookArgs` and `--config` tokens, so
the spawned line is `echoLineActual` and the shell's captured stdout is its
echo of those extra tokens rather than "hi" and a newline. -/
theorem directMode_echo_counterexample :
    stepSpec (fun _ => ⟨none, [], []⟩) [] .undef [] ⟨jstr "echo", some [jstr "hi"], none⟩ =
      [.spawn echoLineActual, .logOut []] ∧
    echoLineActual ≠ jstr "echo hi" := by
  exact ⟨by decide, by decide⟩

/-- Claim C1 amended: in the claim C1 scenario the spawned command line is
`echo hi --hookArgs '<JSON of [config]>' --config 'undefined'` — the captured
configuration rides serialized inside the `--hookArgs` array, the `--config`
slot interpolates the absent executor — and with no captured configuration it
is exactly `echoLineActual`, not `echo hi`, so the captured standard output is
the shell's output for that longer line rather than "hi" plus newline. -/
theorem directMode_echo_amended (oracle : ExecOracle) (found : List JStr)
    (config : JsValue) :
    ∃ rest, stepSpec oracle found config [] ⟨jstr "echo", some [jstr "hi"], none⟩ =
      Event.spawn (jstr "echo hi --hookArgs " ++ qc :: jsonArrayStringify [config] ++
        qc :: jstr " --config " ++ qc :: jstr "undefined" ++ [qc]) :: rest := by
  have hstep : stepSpec oracle found config [] ⟨jstr "echo", some [jstr "hi"], none⟩ =
      execEvents oracle (jstr "echo hi --hookArgs " ++ qc :: jsonArrayStringify [config] ++
        qc :: jstr " --config " ++ qc :: jstr "undefined" ++ [qc]) := rfl
  rw [hstep]
  exact execEvents_head oracle _

theorem spawn_mem_execEvents (oracle : ExecOracle) (l line : JStr)
    (h : Event.spawn line ∈ execEvents oracle l) : line = l := by
  cases he : (oracle l).error with
  | none =>
    rw [execEvents_ok oracle l he] at h
    simp at h
    exact h
  | some e =>
    rw [execEvents_err oracle l e he] at h
    simp at h
    exact h

theorem stepSpec_executor (oracle : ExecOracle) (foundExecutables : List JStr)
    (config : JsValue) (hookArgs : List JsValue) (spec : CommandSpec) (exe : JStr)
    (h : executorFalsy spec.executor = false)
    (hres : resolveCommand foundExecutables spec.command = some exe) (hne : exe ≠ []) :
    stepSpec oracle foundExecutables config hookArgs spec =
      execEvents oracle (runExecutableCommandString (spec.executor.getD []) exe spec.args
        (.str spec.command) (config :: hookArgs)) := by
  simp [stepSpec, h, hres, strOptTruthy, hne]

theorem stepSpec_notFound (oracle : ExecOracle) (foundExecutables : List JStr)
    (config : JsValue) (hookArgs : List JsValue) (spec : CommandSpec)
    (h : executorFalsy spec.executor = false)
    (hres : strOptTruthy (resolveCommand foundExecutables spec.command) = false) :
    stepSpec oracle foundExecutables config hookArgs spec =
      [.logErr (jstr "Command " ++ spec.command ++ jstr " not found.")] := by
  simp [stepSpec, h, hres]

theorem stepSpec_spawn_line (oracle : ExecOracle) (foundExecutables : List JStr)
    (config : JsValue) (hookArgs : List JsValue) (spec : CommandSpec) (line : JStr)
    (h : Event.spawn line ∈ stepSpec oracle foundExecutables config hookArgs spec) :
    (executorFalsy spec.executor = true ∧
      line = runShellCommandString (resolveCommand foundExecutables spec.command) spec.args
        spec.command (executorJsValue spec.executor) (config :: hookArgs)) ∨
    (executorFalsy spec.executor = false ∧
      ∃ exe, resolveCommand foundExecutables spec.command = some exe ∧
        line = runExecutableCommandString (spec.executor.getD []) exe spec.args
          (.str spec.command) (config :: hookArgs)) := by
  cases hdir : executorFalsy spec.executor with
  | true =>
    left
    refine ⟨rfl, ?_⟩
    rw [stepSpec_direct oracle foundExecutables config hookArgs spec hdir] at h
    exact spawn_mem_execEvents oracle _ line h
  | false =>
    right
    refine ⟨rfl, ?_⟩
    cases hres : resolveCommand foundExecutables spec.command with
    | none =>
      rw [stepSpec_notFound oracle foundExecutables config hookArgs spec hdir
        (by rw [hres]; rfl)] at h
      simp at h
    | some exe =>
      cases exe with
      | nil =>
        rw [stepSpec_notFound oracle foundExecutables config hookArgs spec hdir
          (by rw [hres]; rfl)] at h
        simp at h
      | cons c t =>
        rw [stepSpec_executor oracle foundExecutables config hookArgs spec (c :: t) hdir hres
          (by simp)] at h
        exact ⟨c :: t, rfl, spawn_mem_execEvents oracle _ line h⟩

/-- Counterexample to claim C7: for a concrete direct-mode invocation with a
string extra hook argument `hi` and a captured `null` configuration, the
constructed command line is `directLineNullHi` — the string argument appears
JSON-quoted inside one serialized array after a `--hookArgs` marker, not
appended unmodified, and the line does not equal the space-joined rendering
the claim describes (with or without the configuration among the extras). -/
theorem extraArgs_serialization_counterexample :
    stepSpec (fun _ => ⟨none, [], []⟩) [] .nullv [.str (jstr "hi")]
        ⟨jstr "c", none, none⟩ =
      [.spawn directLineNullHi, .logOut []] ∧
    specCommandLine (jstr "c") [] [.nullv, .str (jstr "hi")] = jstr "c null hi" ∧
    directLineNullHi ≠ jstr "c null hi" ∧
    directLineNullHi ≠ specCommandLine (jstr "c") [] [.str (jstr "hi")] :=
  ⟨by decide, by decide, by decide, by decide⟩

/-- Claim C7 amended: in every constructed command line, the extra arguments —
the captured configuration followed by the hook's positional arguments — are
serialized together by one `JSON.stringify` of the whole array (so string
extras appear JSON-quoted inside it, not unmodified), wrapped in single quotes
after a literal ` --hookArgs ` marker; a ` --config '<v>'` token follows where
`v` is the template interpolation of the function's fourth parameter (the
falsy executor in direct mode, the command name in executor mode), not a JSON
encoding of the configuration; only the command, resolved path and `args`
tokens are joined by bare single spaces, and the only quoting is these fixed
single quotes. -/
theorem extraArgs_serialization_amended (oracle : ExecOracle)
    (foundExecutables : List JStr) (config : JsValue) (hookArgs : List JsValue)
    (spec : CommandSpec) (line : JStr)
    (h : Event.spawn line ∈ stepSpec oracle foundExecutables config hookArgs spec) :
    ∃ head confSlot,
      line = head ++ jstr " --hookArgs " ++ qc ::
        jsonArrayStringify (config :: hookArgs) ++ qc :: jstr " --config " ++
        qc :: confSlot ++ [qc] ∧
      ((executorFalsy spec.executor = true ∧
        head = spec.command ++ jstr " " ++ argsJoin spec.args ∧
        confSlot = jsToString (executorJsValue spec.executor)) ∨
      (executorFalsy spec.executor = false ∧
        ∃ exe, resolveCommand foundExecutables spec.command = some exe ∧
          head = spec.executor.getD [] ++ jstr " " ++ exe ++ jstr " " ++
            argsJoin spec.args ∧
          confSlot = spec.command)) := by
  rcases stepSpec_spawn_line oracle foundExecutables config hookArgs spec line h with
    ⟨hdir, rfl⟩ | ⟨hdir, exe, hres, rfl⟩
  · refine ⟨spec.command ++ jstr " " ++ argsJoin spec.args,
      jsToString (executorJsValue spec.executor), ?_, Or.inl ⟨hdir, rfl, rfl⟩⟩
    simp [runShellCommandString, List.append_assoc]
  · refine ⟨spec.executor.getD [] ++ jstr " " ++ exe ++ jstr " " ++ argsJoin spec.args,
      spec.command, ?_, Or.inr ⟨hdir, exe, hres, rfl, rfl⟩⟩
    simp [runExecutableCommandString, List.append_assoc, jsToString]

/-- Witness for claim C7's amended theorem at the concrete counterexample
line: the decomposition it asserts holds for `directLineNullHi`. -/
theorem extraArgs_serialization_witness :
    ∃ head confSlot,
      directLineNullHi = head ++ jstr " --hookArgs " ++ qc ::
        jsonArrayStringify (JsValue.nullv :: [JsValue.str (jstr "hi")]) ++
        qc :: jstr " --config " ++ qc :: confSlot ++ [qc] ∧
      ((executorFalsy none = true ∧
        head = jstr "c" ++ jstr " " ++ argsJoin none ∧
        confSlot = jsToString (executorJsValue none)) ∨
      (executorFalsy none = false ∧
        ∃ exe, resolveCommand [] (jstr "c") = some exe ∧
          head = (none : Option JStr).getD [] ++ jstr " " ++ exe ++ jstr " " ++
            argsJoin none ∧
          confSlot = jstr "c")) :=
  extraArgs_serialization_amended (fun _ => ⟨none, [], []⟩) [] .nullv [.str (jstr "hi")]
    ⟨jstr "c", none, none⟩ directLineNullHi (by decide)

/-- Claim C8: in both direct mode and executor mode, every command line the
invoker hands to the shell passes through the hook's positional arguments and
the captured resolved configuration: the serialized array of the configuration
followed by the hook arguments is embedded, single-quoted, after the
`--hookArgs` marker. -/
theorem invoker_passes_config_and_hookArgs (oracle : ExecOracle)
    (foundExecutables : List JStr) (config : JsValue) (hookArgs : List JsValue)
    (spec : CommandSpec) (line : JStr)
    (h : Event.spawn line ∈ stepSpec oracle foundExecutables config hookArgs spec) :
    ∃ pre post, line = pre ++ (jstr " --hookArgs " ++ qc ::
      jsonArrayStringify (config :: hookArgs) ++ [qc]) ++ post := by
  rcases stepSpec_spawn_line oracle foundExecutables config hookArgs spec line h with
    ⟨_, rfl⟩ | ⟨_, exe, _, rfl⟩
  · exact ⟨spec.command ++ jstr " " ++ argsJoin spec.args,
      jstr " --config " ++ qc :: jsToString (executorJsValue spec.executor) ++ [qc],
      by simp [runShellCommandString, List.append_assoc]⟩
  · exact ⟨spec.executor.getD [] ++ jstr " " ++ exe ++ jstr " " ++ argsJoin spec.args,
      jstr " --config " ++ qc :: jsToString (.str spec.command) ++ [qc],
      by simp [runExecutableCommandString, List.append_assoc]⟩

/-- Witness for claim C8 in both modes: the embedded serialized argument array
is exhibited for a concrete direct-mode line and a concrete executor-mode
line. -/
theorem invoker_passes_config_and_hookArgs_witness :
    (∃ pre post, echoLineActual = pre ++ (jstr " --hookArgs " ++ qc ::
      jsonArrayStringify [JsValue.undef] ++ [qc]) ++ post) ∧
    (∃ pre post, execLineSample = pre ++ (jstr " --hookArgs " ++ qc ::
      jsonArrayStringify [JsValue.undef] ++ [qc]) ++ post) :=
  ⟨invoker_passes_config_and_hookArgs (fun _ => ⟨none, [], []⟩) [] .undef []
      ⟨jstr "echo", some [jstr "hi"], none⟩ echoLineActual (by decide),
    invoker_passes_config_and_hookArgs (fun _ => ⟨none, [], []⟩) [jstr "/r/a.py"] .undef []
      ⟨jstr "a.py", none, some (jstr "python")⟩ execLineSample (by decide)⟩

/-- Claim C9: at plugin construction, a missing `paths` option defaults to
`['./']`; an empty `paths` array raises the configuration error synchronously
— construction itself performs no directory walk, walking happens only inside
the generated handlers when a hook later fires; and a non-object options value
fails construction synchronously: a non-object primitive raises the explicit
options-must-be-an-object error, and `null` (which the `typeof` guard lets
through) still aborts construction, with the destructuring TypeError.  The
specification's `ConfigurationError` names this class of synchronous
construction failures — the source throws untyped `Error` values. -/
theorem injectCommands_options_validation :
    (∀ hooks, InjectCommands (.objectv none hooks) =
      .ok ⟨[jstr "./"], pluginFields hooks⟩) ∧
    (∀ hooks, InjectCommands (.objectv (some []) hooks) = .error .noSearchRoots) ∧
    (∀ d, InjectCommands (.nonObjectPrim d) = .error .optionsNotObject) ∧
    (∃ e, InjectCommands .nullv = .error e) :=
  ⟨fun _ => rfl, fun _ => rfl, fun _ => rfl, ⟨.nullDestructureTypeError, rfl⟩⟩

theorem hookHandler_last (hooks : List (JStr × JsValue)) (key : JStr)
    (hmem : key ∈ hooks.map Prod.fst) :
    ∃ v, jsObjGet (pluginFields hooks) key = some (.hookHandler v) := by
  rw [List.mem_map] at hmem
  obtain ⟨kv, hkv, hfst⟩ := hmem
  have hmem2 : (kv.1, PluginField.hookHandler kv.2) ∈
      (hooks.map (fun kv => (kv.1, PluginField.hookHandler kv.2))).reverse := by
    rw [List.mem_reverse]
    exact List.mem_map_of_mem _ hkv
  cases hfind : ((hooks.map (fun kv => (kv.1, PluginField.hookHandler kv.2))).reverse).find?
      (fun x => x.1 == key) with
  | none =>
    rw [List.find?_eq_none] at hfind
    exact absurd (by simp [hfst]) (hfind _ hmem2)
  | some res =>
    have hresmem := List.mem_of_find?_eq_some hfind
    rw [List.mem_reverse, List.mem_map] at hresmem
    obtain ⟨kv', _, hkv'⟩ := hresmem
    refine ⟨kv'.2, ?_⟩
    rw [jsObjGet]
    have hrev : (pluginFields hooks).reverse =
        (hooks.map (fun kv => (kv.1, PluginField.hookHandler kv.2))).reverse ++
          [(jstr "configResolved", .captureConfig),
            (jstr "name", .nameStr (jstr "inject-commands"))] := by
      simp [pluginFields]
    rw [hrev, List.find?_append, hfind]
    simp [← hkv']

/-- Claim C10: a hook entry named `configResolved` (or `name`) among the
options overwrites the plugin's own `configResolved` callback (or name),
because the generated hook entries are spread after the fixed fields of the
returned object literal and a later key wins; consequently the resolved build
configuration is never captured — it stays `undefined` for every subsequent
hook invocation. -/
theorem hook_key_overwrites_plugin_fields (hooks : List (JStr × JsValue)) :
    ((jstr "configResolved") ∈ hooks.map Prod.fst →
      (∃ v, jsObjGet (pluginFields hooks) (jstr "configResolved") =
        some (.hookHandler v)) ∧
      ∀ resolvedConfig, capturedConfig hooks resolvedConfig = .undef) ∧
    ((jstr "name") ∈ hooks.map Prod.fst →
      ∃ v, jsObjGet (pluginFields hooks) (jstr "name") = some (.hookHandler v)) := by
  refine ⟨?_, hookHandler_last hooks (jstr "name")⟩
  intro hmem
  obtain ⟨v, hv⟩ := hookHandler_last hooks (jstr "configResolved") hmem
  refine ⟨⟨v, hv⟩, ?_⟩
  intro resolvedConfig
  rw [capturedConfig, hv]

/-- Witness for claim C10: concrete options whose hook entries are named
`configResolved` and `name`; both plugin fields are overwritten by generated
handlers and the configuration captured after the host's signal is still
`undefined`. -/
theorem hook_key_overwrites_plugin_fields_witness :
    (∃ v, jsObjGet (pluginFields [(jstr "configResolved", JsValue.nullv),
      (jstr "name", JsValue.nullv)]) (jstr "configResolved") = some (.hookHandler v)) ∧
    capturedConfig [(jstr "configResolved", JsValue.nullv), (jstr "name", JsValue.nullv)]
      (.str (jstr "cfg")) = .undef ∧
    (∃ v, jsObjGet (pluginFields [(jstr "configResolved", JsValue.nullv),
      (jstr "name", JsValue.nullv)]) (jstr "name") = some (.hookHandler v)) := by
  have h := hook_key_overwrites_plugin_fields
    [(jstr "configResolved", JsValue.nullv), (jstr "name", JsValue.nullv)]
  have h1 := h.1 (by simp)
  exact ⟨h1.1, h1.2 _, h.2 (by simp)⟩

/-- Witness for claim C1's amended theorem at the concrete scenario (no
captured configuration): the spawned line is the literal amended command
line. -/
theorem directMode_echo_amended_witness :
    ∃ rest, stepSpec (fun _ => ⟨none, [], []⟩) [] .undef []
        ⟨jstr "echo", some [jstr "hi"], none⟩ =
      Event.spawn (jstr "echo hi --hookArgs " ++ qc ::
        jsonArrayStringify [JsValue.undef] ++ qc :: jstr " --config " ++
        qc :: jstr "undefined" ++ [qc]) :: rest :=
  directMode_echo_amended (fun _ => ⟨none, [], []⟩) [] .undef
